import Mathlib

/-!
Verification of the Dijkstra shortest-path engine in `dijkstra.py`.

The embedding follows the Python source closely:

* a graph is the dict `{node: {neighbour: weight}}`, embedded as an
  association list preserving insertion order;
* `distances` is a Python dict from nodes to `float('infinity')` or an int,
  embedded as a partial map `Node → Option ℕ∞` (a missing key is `none`,
  and looking it up raises `KeyError`);
* `parents_map` is a dict from nodes to nodes, embedded as `Node → Option Node`;
* the `heapq` priority queue is a multiset of `(distance, node)` pairs from
  which `heappop` removes the least pair in lexicographic order;
* the `while` loops run on explicit fuel: a result `none` means the fuel ran
  out, `some (Except.error e)` means a Python exception was raised, and
  `some (Except.ok x)` means the loop finished normally with value `x`.
-/

namespace Dijkstra

abbrev Node := String

/-- The graph dict `{node: {neighbour: weight}}` as an ordered association list. -/
abbrev Graph := List (Node × List (Node × Nat))

/-- Python exceptions raised by the program: only `KeyError` can occur. -/
inductive Err where
  | keyError : Node → Err
deriving DecidableEq, Repr

/-- The key set of the graph dict (`for node in self.graph`). -/
def keys (g : Graph) : List Node := g.map Prod.fst

/-- Dict lookup `self.graph[u]`: `none` models a `KeyError`. -/
def lookupGraph (g : Graph) (u : Node) : Option (List (Node × Nat)) :=
  (g.find? (fun e => e.1 == u)).map Prod.snd

/-- The mutable state of `_calculate_distances`: the dicts `self.distances`
and `self.parents_map` together with the `priority_queue` list. -/
structure DState where
  distances : Node → Option ℕ∞
  parents : Node → Option Node
  queue : List (Nat × Node)

/-- `heapq.heappop`: remove and return the least `(distance, node)` pair in
lexicographic order (Python compares the tuples; `heapq` is a min-heap). -/
def popMin : List (Nat × Node) → Option ((Nat × Node) × List (Nat × Node))
  | [] => none
  | x :: xs =>
    match popMin xs with
    | none => some (x, [])
    | some (m, rest) =>
      if x.1 < m.1 ∨ (x.1 = m.1 ∧ x.2 ≤ m.2) then some (x, xs)
      else some (m, x :: rest)

/-- The `for neighbour, weight in self.graph[current_node].items():` body:
relax each neighbour in turn.  Looking up a neighbour that has no entry in
`self.distances` raises a `KeyError`, exactly as in Python. -/
def relaxList (d : Nat) (u : Node) : List (Node × Nat) → DState → Except Err DState
  | [], s => .ok s
  | (v, w) :: rest, s =>
    match s.distances v with
    | none => .error (.keyError v)
    | some dv =>
      if ((d + w : Nat) : ℕ∞) < dv then
        relaxList d u rest
          { distances := Function.update s.distances v (some ((d + w : Nat) : ℕ∞))
            parents := Function.update s.parents v (some u)
            queue := (d + w, v) :: s.queue }
      else
        relaxList d u rest s

/-- The `while priority_queue:` loop of `_calculate_distances`. -/
def dloop (g : Graph) : Nat → DState → Option (Except Err DState)
  | fuel, s =>
    match popMin s.queue with
    | none => some (.ok s)
    | some ((d, u), q') =>
      match fuel with
      | 0 => none
      | fuel + 1 =>
        match s.distances u with
        | none => some (.error (.keyError u))
        | some du =>
          if du < (d : ℕ∞) then dloop g fuel { s with queue := q' }
          else
            match lookupGraph g u with
            | none => some (.error (.keyError u))
            | some nbrs =>
              match relaxList d u nbrs { s with queue := q' } with
              | .error e => some (.error e)
              | .ok s' => dloop g fuel s'

/-- The state of `_calculate_distances` just before the `while` loop:
`self.distances = {node: float('infinity') for node in self.graph}`, then
`self.distances[start_node] = 0` (a dict assignment, which inserts the key if
missing), and `priority_queue = [(0, start_node)]`. -/
def dinit (g : Graph) (start_node : Node) : DState :=
  { distances :=
      Function.update (fun v => if v ∈ keys g then some (⊤ : ℕ∞) else none)
        start_node (some (0 : ℕ∞))
    parents := fun _ => none
    queue := [(0, start_node)] }

/-- `Dijkstra.__init__` / `_calculate_distances`: run the relaxation loop from
the initial state with the given amount of fuel. -/
def calculate_distances (g : Graph) (start_node : Node) (fuel : Nat) :
    Option (Except Err DState) :=
  dloop g fuel (dinit g start_node)

/-- The backtracking `while current_node != self.start_node:` loop of
`get_shortest_path`: `current_node = self.parents_map[current_node]` (a
`KeyError` when absent) and `path.append(current_node)`; at the end the
accumulated list is reversed. -/
def getPathAux (p : Node → Option Node) (start_node : Node) :
    Nat → Node → List Node → Option (Except Err (List Node))
  | fuel, cur, acc =>
    if cur = start_node then some (.ok acc.reverse)
    else
      match fuel with
      | 0 => none
      | fuel + 1 =>
        match p cur with
        | none => some (.error (.keyError cur))
        | some nxt => getPathAux p start_node fuel nxt (acc ++ [nxt])

/-- `get_shortest_path(end_node)`: `path = [end_node]`, backtrack through
`parents_map`, then reverse. -/
def get_shortest_path (p : Node → Option Node) (start_node : Node) (fuel : Nat)
    (end_node : Node) : Option (Except Err (List Node)) :=
  getPathAux p start_node fuel end_node [end_node]

/-- The sample graph literal at the bottom of `dijkstra.py`. -/
def demoGraph : Graph :=
  [("A", [("B", 4), ("C", 7), ("D", 2), ("F", 9)]),
   ("B", [("A", 5), ("D", 3), ("C", 1), ("E", 4)]),
   ("C", [("B", 9), ("A", 15), ("D", 4), ("E", 2), ("F", 6)]),
   ("D", [("A", 6), ("B", 6), ("C", 1), ("E", 8)]),
   ("E", [("D", 3), ("C", 1), ("F", 1)]),
   ("F", [("C", 8), ("E", 5)])]

/-- Extract the final state from a successful run (used to state concrete
facts about `Dijkstra(graph, 'A')` without an existential). -/
def resState (r : Option (Except Err DState)) : DState :=
  match r with
  | some (.ok s) => s
  | _ => { distances := fun _ => none, parents := fun _ => none, queue := [] }

/-! ## Graph-theoretic notions used to state the claims -/

/-- `edgeW g u v w`: the graph has an edge from `u` to `v` of weight `w`,
i.e. `(v, w)` occurs in the neighbour dict of `u`. -/
def edgeW (g : Graph) (u v : Node) (w : Nat) : Prop :=
  ∃ nbrs, lookupGraph g u = some nbrs ∧ (v, w) ∈ nbrs

/-- `PathW g src v n`: there is a directed walk from `src` to `v` in `g`
whose edge weights sum to `n`. -/
inductive PathW (g : Graph) (src : Node) : Node → Nat → Prop
  | refl : PathW g src src 0
  | step {u v : Node} {n w : Nat} : PathW g src u n → edgeW g u v w →
      PathW g src v (n + w)

/-- A node is reachable from the source when some walk leads to it. -/
def Reachable (g : Graph) (src v : Node) : Prop := ∃ n, PathW g src v n

/-- The true shortest-path distance from `src` to `v`, as an extended
natural number: the infimum of the weights of all walks from `src` to `v`
(`⊤` when `v` is unreachable). -/
noncomputable def sdist (g : Graph) (src v : Node) : ℕ∞ :=
  sInf {c : ℕ∞ | ∃ n : Nat, c = (n : ℕ∞) ∧ PathW g src v n}

/-- `Reaches p src v`: following `parents_map` entries from `v` leads back
to `src` after finitely many steps. -/
inductive Reaches (p : Node → Option Node) (src : Node) : Node → Prop
  | refl : Reaches p src src
  | step {x y : Node} : p x = some y → Reaches p src y → Reaches p src x

/-- `ParentTrail g p src v n`: following `parents_map` entries from `v` leads
back to `src`, every hop `parent → child` is an edge of the graph, and the
weights of those edges sum to `n`. -/
inductive ParentTrail (g : Graph) (p : Node → Option Node) (src : Node) :
    Node → Nat → Prop
  | refl : ParentTrail g p src src 0
  | step {u v : Node} {n w : Nat} : ParentTrail g p src u n → p v = some u →
      edgeW g u v w → ParentTrail g p src v (n + w)

/-- Pointwise comparison of two distance dicts: every recorded distance is
still recorded and has not increased. -/
def distsLE (f' f : Node → Option ℕ∞) : Prop :=
  ∀ x dv, f x = some dv → ∃ dv', f' x = some dv' ∧ dv' ≤ dv

/-! ## The loop invariant

The ghost set `done` collects the nodes that have been genuinely processed
(popped with an up-to-date distance).  It exists only in the proofs; the
program state is exactly the `DState` of the source. -/

/-- Core invariant of the `while` loop of `_calculate_distances`. -/
structure InvCore (g : Graph) (src : Node) (s : DState) (done : Set Node) :
    Prop where
  /-- The key set of `self.distances` is the key set of the graph. -/
  dom : ∀ v, (s.distances v).isSome ↔ v ∈ keys g
  /-- `self.distances[start_node]` stays `0`. -/
  dist_src : s.distances src = some 0
  /-- The start node never acquires a parent. -/
  par_src : s.parents src = none
  /-- Genuinely processed nodes hold their true shortest distance. -/
  done_dist : ∀ v ∈ done, s.distances v = some (sdist g src v)
  /-- Genuinely processed nodes are reachable. -/
  done_fin : ∀ v ∈ done, sdist g src v ≠ ⊤
  /-- Every queue entry is an upper bound for the recorded distance of its node. -/
  q_sound : ∀ e ∈ s.queue, ∃ dv, s.distances e.2 = some dv ∧
    dv ≤ ((e.1 : Nat) : ℕ∞)
  /-- Every unprocessed node with a finite recorded distance has an
  up-to-date queue entry. -/
  q_fresh : ∀ (v : Node) (n : Nat), v ∉ done →
    s.distances v = some (n : ℕ∞) → (n, v) ∈ s.queue
  /-- Every finite recorded distance is the weight of an actual walk. -/
  path : ∀ (v : Node) (n : Nat), s.distances v = some (n : ℕ∞) → PathW g src v n
  /-- A `parents_map` entry records an edge whose endpoints' recorded
  distances differ exactly by the edge weight; the parent is processed. -/
  pp : ∀ x y, s.parents x = some y → y ∈ done ∧
    ∃ (dy w : Nat), s.distances y = some (dy : ℕ∞) ∧ edgeW g y x w ∧
      s.distances x = some ((dy + w : Nat) : ℕ∞)
  /-- Following `parents_map` from any node with a finite recorded distance
  leads back to the start node. -/
  reach : ∀ (v : Node) (n : Nat), s.distances v = some (n : ℕ∞) →
    Reaches s.parents src v

/-- All outgoing edges of every node of `D` have been relaxed. -/
def DoneRelax (g : Graph) (src : Node) (s : DState) (D : Set Node) : Prop :=
  ∀ u ∈ D, ∀ nbrs, lookupGraph g u = some nbrs →
    ∀ e ∈ nbrs, ∃ dv, s.distances e.1 = some dv ∧
      dv ≤ sdist g src u + (e.2 : ℕ∞)

/-- Total view of the distances dict (`⊤` both for an explicit
`float('infinity')` entry and for a missing key). -/
def distOf (s : DState) (v : Node) : ℕ∞ := (s.distances v).getD ⊤

/-- A minimal graph where `'B'` appears as a neighbour but not as a key. -/
def leafGraph : Graph := [("A", [("B", 1)])]

/-- The final state of `Dijkstra(graph, 'A')` on the sample graph. -/
def demoState : DState := resState (calculate_distances demoGraph "A" 16)

/-- A graph with an unreachable node `'Z'`. -/
def unreachGraph : Graph := [("A", [("B", 1)]), ("B", []), ("Z", [])]

/-- The engine built on `unreachGraph` from `'A'`. -/
def unreachState : DState := resState (calculate_distances unreachGraph "A" 8)

/-! ## Basic lemmas about `sdist` -/

theorem sdist_le {g : Graph} {src v : Node} {n : Nat} (h : PathW g src v n) :
    sdist g src v ≤ (n : ℕ∞) :=
  sInf_le ⟨n, rfl, h⟩

theorem sdist_src (g : Graph) (src : Node) : sdist g src src = 0 := by
  refine le_antisymm ?_ (zero_le _)
  simpa using sdist_le (@PathW.refl g src)

theorem sdist_ne_top {g : Graph} {src v : Node} (h : Reachable g src v) :
    sdist g src v ≠ ⊤ := by
  obtain ⟨n, hn⟩ := h
  exact fun htop => by simpa [htop] using sdist_le hn

/-- The infimum over walk weights is attained by a concrete walk. -/
theorem sdist_attained {g : Graph} {src v : Node} (h : Reachable g src v) :
    ∃ m : Nat, sdist g src v = (m : ℕ∞) ∧ PathW g src v m := by
  classical
  set T : Set Nat := {n | PathW g src v n} with hT
  obtain ⟨n₀, hn₀⟩ := h
  have hTne : T.Nonempty := ⟨n₀, hn₀⟩
  obtain ⟨m, hmT, hmin⟩ :=
    (wellFounded_lt (α := Nat)).has_min T hTne
  refine ⟨m, ?_, hmT⟩
  refine le_antisymm (sdist_le hmT) ?_
  refine le_sInf ?_
  rintro c ⟨n, rfl, hn⟩
  exact_mod_cast Nat.le_of_not_lt (fun hlt => hmin n hn hlt)

theorem reachable_of_sdist_ne_top {g : Graph} {src v : Node}
    (h : sdist g src v ≠ ⊤) : Reachable g src v := by
  by_contra hnr
  refine h (le_antisymm le_top (le_sInf ?_))
  rintro c ⟨n, rfl, hn⟩
  exact absurd ⟨n, hn⟩ hnr

theorem sdist_triangle {g : Graph} {src u v : Node} {w : Nat}
    (he : edgeW g u v w) : sdist g src v ≤ sdist g src u + (w : ℕ∞) := by
  rcases eq_or_ne (sdist g src u) ⊤ with htop | hfin
  · simp [htop]
  · obtain ⟨m, hm, hpath⟩ := sdist_attained (reachable_of_sdist_ne_top hfin)
    rw [hm]
    have hle : sdist g src v ≤ ((m + w : Nat) : ℕ∞) := sdist_le (hpath.step he)
    simpa [Nat.cast_add] using hle

/-! ## Lemmas about `popMin` -/

theorem eq_nil_of_popMin_eq_none {q : List (Nat × Node)} (h : popMin q = none) :
    q = [] := by
  cases q with
  | nil => rfl
  | cons x xs =>
    exfalso
    cases hxs : popMin xs with
    | none =>
      simp only [popMin, hxs] at h
      exact Option.noConfusion h
    | some r =>
      obtain ⟨m, rest⟩ := r
      simp only [popMin, hxs] at h
      split at h <;> exact Option.noConfusion h

theorem popMin_perm {q q' : List (Nat × Node)} {e : Nat × Node}
    (h : popMin q = some (e, q')) : q.Perm (e :: q') := by
  induction q generalizing e q' with
  | nil => simp [popMin] at h
  | cons x xs ih =>
    cases hxs : popMin xs with
    | none =>
      simp only [popMin, hxs] at h
      cases h
      have hnil : xs = [] := eq_nil_of_popMin_eq_none hxs
      subst hnil
      exact List.Perm.refl _
    | some r =>
      obtain ⟨m, rest⟩ := r
      simp only [popMin, hxs] at h
      split at h
      · cases h
        exact List.Perm.refl _
      · cases h
        exact ((ih hxs).cons x).trans (List.Perm.swap _ x _)

theorem popMin_mem {q q' : List (Nat × Node)} {e : Nat × Node}
    (h : popMin q = some (e, q')) : e ∈ q :=
  (popMin_perm h).symm.subset (List.mem_cons_self e q')

/-- The popped pair has the least distance among all queued pairs. -/
theorem popMin_min {q q' : List (Nat × Node)} {e : Nat × Node}
    (h : popMin q = some (e, q')) : ∀ f ∈ q, e.1 ≤ f.1 := by
  induction q generalizing e q' with
  | nil => simp [popMin] at h
  | cons x xs ih =>
    cases hxs : popMin xs with
    | none =>
      simp only [popMin, hxs] at h
      cases h
      have hnil : xs = [] := eq_nil_of_popMin_eq_none hxs
      subst hnil
      intro f hf
      simp only [List.mem_singleton] at hf
      simp [hf]
    | some r =>
      obtain ⟨m, rest⟩ := r
      simp only [popMin, hxs] at h
      split at h
      · rename_i hle
        cases h
        intro f hf
        rcases List.mem_cons.mp hf with rfl | hf
        · exact le_rfl
        · refine le_trans ?_ (ih hxs f hf)
          rcases hle with hlt | ⟨heq, _⟩
          · exact le_of_lt hlt
          · exact le_of_eq heq
      · rename_i hnle
        cases h
        intro f hf
        rcases List.mem_cons.mp hf with rfl | hf
        · push_neg at hnle
          exact hnle.1
        · exact ih hxs f hf



/-! ## Small helper lemmas -/

theorem exists_coe_of_ne_top {a : ℕ∞} (h : a ≠ ⊤) : ∃ n : Nat, a = (n : ℕ∞) := by
  induction a using WithTop.recTopCoe with
  | top => exact absurd rfl h
  | coe n => exact ⟨n, rfl⟩

theorem mem_keys_of_find? {g : Graph} {u : Node} {e : Node × List (Node × Nat)}
    (hf : List.find? (fun e => e.1 == u) g = some e) : u ∈ keys g := by
  have hmem := List.mem_of_find?_eq_some hf
  have hpred := List.find?_some hf
  refine List.mem_map.mpr ⟨e, hmem, ?_⟩
  simpa using hpred

theorem lookupGraph_eq_none_of {g : Graph} {u : Node} (h : u ∉ keys g) :
    lookupGraph g u = none := by
  cases hf : List.find? (fun e => e.1 == u) g with
  | none => simp [lookupGraph, hf]
  | some e => exact absurd (mem_keys_of_find? hf) h

theorem mem_keys_of_lookupGraph {g : Graph} {u : Node} {nbrs : List (Node × Nat)}
    (h : lookupGraph g u = some nbrs) : u ∈ keys g := by
  unfold lookupGraph at h
  cases hf : List.find? (fun e => e.1 == u) g with
  | none =>
    rw [hf] at h
    exact Option.noConfusion h
  | some e => exact mem_keys_of_find? hf

theorem edgeW_of_lookup {g : Graph} {u : Node} {nbrs : List (Node × Nat)}
    (h : lookupGraph g u = some nbrs) {e : Node × Nat} (he : e ∈ nbrs) :
    edgeW g u e.1 e.2 := ⟨nbrs, h, by simpa using he⟩

theorem distsLE_refl (f : Node → Option ℕ∞) : distsLE f f :=
  fun _ dv h => ⟨dv, h, le_rfl⟩

theorem distsLE_trans {f'' f' f : Node → Option ℕ∞}
    (h₂ : distsLE f'' f') (h₁ : distsLE f' f) : distsLE f'' f := by
  intro x dv h
  obtain ⟨dv', h', hle'⟩ := h₁ x dv h
  obtain ⟨dv'', h'', hle''⟩ := h₂ x dv' h'
  exact ⟨dv'', h'', le_trans hle'' hle'⟩

theorem doneRelax_mono {g : Graph} {src : Node} {s' s : DState} {D : Set Node}
    (hle : distsLE s'.distances s.distances) (h : DoneRelax g src s D) :
    DoneRelax g src s' D := by
  intro u hu nbrs hnbrs e he
  obtain ⟨dv, hdv, hb⟩ := h u hu nbrs hnbrs e he
  obtain ⟨dv', hdv', hle'⟩ := hle e.1 dv hdv
  exact ⟨dv', hdv', le_trans hle' hb⟩

/-- The invariant holds in the state `dinit` built by `_calculate_distances`
before its `while` loop. -/
theorem init_invCore {g : Graph} {src : Node} (hsrc : src ∈ keys g) :
    InvCore g src (dinit g src) ∅ := by
  constructor
  · intro v
    by_cases hv : v = src
    · subst hv
      simp [dinit, Function.update_same, hsrc]
    · simp only [dinit, Function.update_noteq hv]
      split <;> simp_all
  · simp [dinit, Function.update_same]
  · rfl
  · simp
  · simp
  · intro e he
    simp only [dinit, List.mem_singleton] at he
    subst he
    refine ⟨0, ?_, ?_⟩
    · simp [dinit, Function.update_same]
    · simp
  · intro v n _ hv
    by_cases hvs : v = src
    · subst hvs
      simp only [dinit, Function.update_same, Option.some.injEq] at hv
      have : n = 0 := by exact_mod_cast hv.symm
      subst this
      simp [dinit]
    · simp only [dinit, Function.update_noteq hvs] at hv
      split at hv
      · simp at hv
      · exact Option.noConfusion hv
  · intro v n hv
    by_cases hvs : v = src
    · subst hvs
      simp only [dinit, Function.update_same, Option.some.injEq] at hv
      have : n = 0 := by exact_mod_cast hv.symm
      subst this
      exact PathW.refl
    · simp only [dinit, Function.update_noteq hvs] at hv
      split at hv
      · simp at hv
      · exact Option.noConfusion hv
  · intro x y hxy
    exact Option.noConfusion hxy
  · intro v n hv
    by_cases hvs : v = src
    · subst hvs
      exact Reaches.refl
    · simp only [dinit, Function.update_noteq hvs] at hv
      split at hv
      · simp at hv
      · exact Option.noConfusion hv

theorem init_doneRelax {g : Graph} {src : Node} :
    DoneRelax g src (dinit g src) ∅ := by
  intro u hu
  exact absurd hu (Set.not_mem_empty u)

/-! ## The frontier lemma and the settling lemma -/

/-- Along any walk from the source, either the endpoint is already processed,
or some unprocessed node carries a queue entry no heavier than the walk. -/
theorem frontier {g : Graph} {src : Node} {s : DState} {done : Set Node}
    (hc : InvCore g src s done) (hr : DoneRelax g src s done)
    {v : Node} {m : Nat} (hp : PathW g src v m) :
    v ∈ done ∨ ∃ (y : Node) (n : Nat), y ∉ done ∧
      s.distances y = some (n : ℕ∞) ∧ n ≤ m ∧ (n, y) ∈ s.queue := by
  induction hp with
  | refl =>
    by_cases hsd : src ∈ done
    · exact Or.inl hsd
    · refine Or.inr ⟨src, 0, hsd, ?_, le_rfl, ?_⟩
      · simpa using hc.dist_src
      · exact hc.q_fresh src 0 hsd (by simpa using hc.dist_src)
  | step hp' he ih =>
    rename_i u v m' w
    rcases ih with hu | ⟨y, n, hy, hdy, hnm, hq⟩
    · -- the walk so far ends in a processed node, so its last edge is relaxed
      obtain ⟨nbrs, hlook, hmem⟩ := he
      obtain ⟨dv, hdv, hb⟩ := hr u hu nbrs hlook (v, w) hmem
      have hsu : sdist g src u ≤ (m' : ℕ∞) := sdist_le hp'
      have hdvle : dv ≤ ((m' + w : Nat) : ℕ∞) := by
        refine le_trans hb ?_
        rw [Nat.cast_add]
        exact add_le_add_right hsu _
      have hdvne : dv ≠ ⊤ := by
        intro htop
        rw [htop] at hdvle
        exact (WithTop.coe_lt_top ((m' + w : Nat))).ne (top_le_iff.mp hdvle)
      obtain ⟨nv, rfl⟩ := exists_coe_of_ne_top hdvne
      have hnvm : nv ≤ m' + w := by exact_mod_cast hdvle
      by_cases hvd : v ∈ done
      · exact Or.inl hvd
      · exact Or.inr ⟨v, nv, hvd, hdv, hnvm, hc.q_fresh v nv hvd hdv⟩
    · exact Or.inr ⟨y, n, hy, hdy, le_trans hnm (Nat.le_add_right _ _), hq⟩

/-- When the loop pops a pair that passes the staleness test, the recorded
distance of the popped node is its true shortest distance.  This is the key
property of Dijkstra's algorithm; it needs non-negative weights (automatic
here) and the minimality of the popped pair. -/
theorem pop_settles {g : Graph} {src : Node} {s : DState} {done : Set Node}
    (hc : InvCore g src s done) (hr : DoneRelax g src s done)
    {d : Nat} {u : Node} {q' : List (Nat × Node)}
    (hpop : popMin s.queue = some ((d, u), q'))
    (hdu : s.distances u = some (d : ℕ∞)) :
    sdist g src u = (d : ℕ∞) := by
  have hle : sdist g src u ≤ (d : ℕ∞) := sdist_le (hc.path u d hdu)
  rcases eq_or_lt_of_le hle with heq | hlt
  · exact heq
  exfalso
  have hne : sdist g src u ≠ ⊤ := by
    intro htop
    rw [htop] at hlt
    exact (lt_irrefl _ (lt_trans hlt (WithTop.coe_lt_top d))).elim
  obtain ⟨m, hm, hpathm⟩ := sdist_attained (reachable_of_sdist_ne_top hne)
  have hmd : m < d := by
    rw [hm] at hlt
    exact_mod_cast hlt
  rcases frontier hc hr hpathm with hud | ⟨y, n, _, hdy, hnm, hq⟩
  · have := hc.done_dist u hud
    rw [hdu, hm] at this
    have : (d : ℕ∞) = (m : ℕ∞) := Option.some.inj this
    have : d = m := by exact_mod_cast this
    omega
  · have hdn : d ≤ n := popMin_min hpop (n, y) hq
    omega


/-! ## Preservation of the parent chains under a relaxation -/

/-- Recorded distances never decrease along a parent chain, so updating the
parent of a node whose recorded distance is strictly above that of `x`
leaves the chain of `x` intact. -/
theorem reaches_update_of_lt {g : Graph} {src : Node} {s : DState}
    {done : Set Node} (hc : InvCore g src s done)
    {v : Node} {dv : ℕ∞} (hdv : s.distances v = some dv) (pv : Option Node) :
    ∀ {x : Node}, Reaches s.parents src x →
      ∀ dx : ℕ∞, s.distances x = some dx → dx < dv →
      Reaches (Function.update s.parents v pv) src x := by
  intro x hre
  induction hre with
  | refl => exact fun _ _ _ => Reaches.refl
  | step hxy hry ih =>
    rename_i x' y
    intro dx hdx hlt
    obtain ⟨_, dy, w, hdy, _, hdx'⟩ := hc.pp x' y hxy
    have hdxeq : dx = ((dy + w : Nat) : ℕ∞) := by
      rw [hdx] at hdx'
      exact Option.some.inj hdx'
    have hylt : (dy : ℕ∞) < dv := by
      refine lt_of_le_of_lt ?_ hlt
      rw [hdxeq]
      exact_mod_cast Nat.le_add_right dy w
    have hxv : x' ≠ v := by
      intro heq
      subst heq
      rw [hdv] at hdx
      exact ne_of_lt hlt (Option.some.inj hdx).symm
    exact Reaches.step (by rw [Function.update_noteq hxv]; exact hxy)
      (ih dy hdy hylt)

/-- If the updated node itself still reaches the source, every old chain can
be routed through the update. -/
theorem reaches_update_other {p : Node → Option Node} {src v : Node}
    {pv : Option Node} (hv : Reaches (Function.update p v pv) src v) :
    ∀ {x : Node}, Reaches p src x → Reaches (Function.update p v pv) src x := by
  intro x hre
  induction hre with
  | refl => exact Reaches.refl
  | step hxy hry ih =>
    rename_i x' y'
    by_cases hxv : x' = v
    · subst hxv
      exact hv
    · exact Reaches.step (by rw [Function.update_noteq hxv]; exact hxy) ih

/-! ## The relaxation loop preserves the invariant -/

theorem relaxList_spec {g : Graph} {src : Node} {d : Nat} {u : Node}
    (hsd : sdist g src u = (d : ℕ∞)) :
    ∀ (l : List (Node × Nat)) (s : DState) (done : Set Node),
      InvCore g src s done → u ∈ done → s.distances u = some (d : ℕ∞) →
      (∀ e ∈ l, edgeW g u e.1 e.2) →
      (∃ err, relaxList d u l s = .error err) ∨
      ∃ s', relaxList d u l s = .ok s' ∧ InvCore g src s' done ∧
        distsLE s'.distances s.distances ∧
        s'.distances u = some (d : ℕ∞) ∧
        (∀ e ∈ l, ∃ dv, s'.distances e.1 = some dv ∧
          dv ≤ ((d + e.2 : Nat) : ℕ∞)) := by
  intro l
  induction l with
  | nil =>
    intro s done hc _ hdu _
    exact Or.inr ⟨s, rfl, hc, distsLE_refl _, hdu, by simp⟩
  | cons e rest ih =>
    obtain ⟨v, w⟩ := e
    intro s done hc hud hdu hedges
    have hedge : edgeW g u v w := hedges (v, w) (List.mem_cons_self _ _)
    cases hdv : s.distances v with
    | none =>
      refine Or.inl ⟨.keyError v, ?_⟩
      simp [relaxList, hdv]
    | some dv =>
      by_cases hlt : ((d + w : Nat) : ℕ∞) < dv
      · -- the relaxation fires: `distance < self.distances[neighbour]`
        have hvu : v ≠ u := by
          intro heq
          subst heq
          rw [hdu] at hdv
          have hdvd : dv = (d : ℕ∞) := (Option.some.inj hdv).symm
          subst hdvd
          have : d + w < d := by exact_mod_cast hlt
          omega
        have hvsrc : v ≠ src := by
          intro heq
          subst heq
          rw [hc.dist_src] at hdv
          have hdv0 : dv = (0 : ℕ∞) := (Option.some.inj hdv).symm
          subst hdv0
          exact (hlt.not_le (zero_le _)).elim
        have hvdone : v ∉ done := by
          intro hvd
          have hd1 := hc.done_dist v hvd
          rw [hdv] at hd1
          have hdveq : dv = sdist g src v := Option.some.inj hd1
          have htri : sdist g src v ≤ ((d + w : Nat) : ℕ∞) := by
            have htr := @sdist_triangle g src u v w hedge
            rw [hsd] at htr
            rw [Nat.cast_add]
            exact htr
          rw [hdveq] at hlt
          exact absurd (lt_of_lt_of_le hlt htri) (lt_irrefl _)
        have hkv : v ∈ keys g := (hc.dom v).mp (by simp [hdv])
        -- the updated state, exactly as assigned by the loop body
        set s₁ : DState :=
          { distances := Function.update s.distances v (some ((d + w : Nat) : ℕ∞))
            parents := Function.update s.parents v (some u)
            queue := (d + w, v) :: s.queue } with hs₁
        have hs₁d : s₁.distances
            = Function.update s.distances v (some ((d + w : Nat) : ℕ∞)) := rfl
        have hs₁p : s₁.parents = Function.update s.parents v (some u) := rfl
        have hs₁q : s₁.queue = (d + w, v) :: s.queue := rfl
        have hdu₁ : s₁.distances u = some (d : ℕ∞) := by
          rw [hs₁d]
          simpa [Function.update_noteq (Ne.symm hvu)] using hdu
        have hc₁ : InvCore g src s₁ done := by
          constructor
          · intro x
            by_cases hxv : x = v
            · subst hxv
              simp [hs₁d, Function.update_same, hkv]
            · simpa [hs₁d, Function.update_noteq hxv] using hc.dom x
          · rw [hs₁d]
            simpa [Function.update_noteq (Ne.symm hvsrc)] using hc.dist_src
          · rw [hs₁p]
            simpa [Function.update_noteq (Ne.symm hvsrc)] using hc.par_src
          · intro x hx
            have hxv : x ≠ v := fun heq => hvdone (heq ▸ hx)
            rw [hs₁d]
            simpa [Function.update_noteq hxv] using hc.done_dist x hx
          · exact hc.done_fin
          · intro e he
            rw [hs₁q] at he
            rcases List.mem_cons.mp he with heq | hmem
            · subst heq
              exact ⟨((d + w : Nat) : ℕ∞), by simp [hs₁d, Function.update_same],
                le_rfl⟩
            · obtain ⟨dv₀, hdv₀, hb₀⟩ := hc.q_sound e hmem
              by_cases hev : e.2 = v
              · rw [hev] at hdv₀
                rw [hdv] at hdv₀
                have hdveq : dv₀ = dv := (Option.some.inj hdv₀).symm
                subst hdveq
                refine ⟨((d + w : Nat) : ℕ∞), ?_, le_trans (le_of_lt hlt) hb₀⟩
                rw [hev, hs₁d]
                simp [Function.update_same]
              · exact ⟨dv₀, by rw [hs₁d]; simpa [Function.update_noteq hev]
                  using hdv₀, hb₀⟩
          · intro x n hxd hx
            rw [hs₁q]
            by_cases hxv : x = v
            · subst hxv
              rw [hs₁d] at hx
              simp only [Function.update_same, Option.some.injEq] at hx
              have hn : n = d + w := by exact_mod_cast hx.symm
              subst hn
              exact List.mem_cons_self _ _
            · rw [hs₁d] at hx
              rw [Function.update_noteq hxv] at hx
              exact List.mem_cons_of_mem _ (hc.q_fresh x n hxd hx)
          · intro x n hx
            by_cases hxv : x = v
            · subst hxv
              rw [hs₁d] at hx
              simp only [Function.update_same, Option.some.injEq] at hx
              have hn : n = d + w := by exact_mod_cast hx.symm
              subst hn
              exact (hc.path u d hdu).step hedge
            · rw [hs₁d] at hx
              rw [Function.update_noteq hxv] at hx
              exact hc.path x n hx
          · intro x y hxy
            rw [hs₁p] at hxy
            by_cases hxv : x = v
            · subst hxv
              simp only [Function.update_same, Option.some.injEq] at hxy
              subst hxy
              refine ⟨hud, d, w, hdu₁, hedge, ?_⟩
              simp [hs₁d, Function.update_same]
            · rw [Function.update_noteq hxv] at hxy
              obtain ⟨hy, dy, w', hdy, hedge', hdx⟩ := hc.pp x y hxy
              have hyv : y ≠ v := fun heq => hvdone (heq ▸ hy)
              refine ⟨hy, dy, w', ?_, hedge', ?_⟩
              · rw [hs₁d]
                simpa [Function.update_noteq hyv] using hdy
              · rw [hs₁d]
                simpa [Function.update_noteq hxv] using hdx
          · have hru : Reaches s.parents src u := hc.reach u d hdu
            have hdlt : (d : ℕ∞) < dv := by
              refine lt_of_le_of_lt ?_ hlt
              exact_mod_cast Nat.le_add_right d w
            have hru₁ : Reaches (Function.update s.parents v (some u)) src u :=
              reaches_update_of_lt hc hdv (some u) hru (d : ℕ∞) hdu hdlt
            have hrv₁ : Reaches (Function.update s.parents v (some u)) src v :=
              Reaches.step (Function.update_same v (some u) s.parents) hru₁
            simp only [hs₁d, hs₁p]
            intro x n hx
            by_cases hxv : x = v
            · subst hxv
              exact hrv₁
            · rw [Function.update_noteq hxv] at hx
              exact reaches_update_other hrv₁ (hc.reach x n hx)
        have hdle₁ : distsLE s₁.distances s.distances := by
          intro x dv₀ hx
          by_cases hxv : x = v
          · subst hxv
            refine ⟨((d + w : Nat) : ℕ∞), by simp [hs₁d, Function.update_same], ?_⟩
            rw [hdv] at hx
            have hdveq : dv₀ = dv := (Option.some.inj hx).symm
            subst hdveq
            exact le_of_lt hlt
          · exact ⟨dv₀, by rw [hs₁d]; simpa [Function.update_noteq hxv] using hx,
              le_rfl⟩
        have heq : relaxList d u ((v, w) :: rest) s = relaxList d u rest s₁ := by
          simp only [relaxList, hdv]
          rw [if_pos hlt, hs₁]
        rcases ih s₁ done hc₁ hud hdu₁
            (fun e he => hedges e (List.mem_cons_of_mem _ he)) with
          ⟨err, herr⟩ | ⟨s', hok, hc', hdle', hdu', hb⟩
        · exact Or.inl ⟨err, heq.trans herr⟩
        · refine Or.inr ⟨s', heq.trans hok, hc',
            distsLE_trans hdle' hdle₁, hdu', ?_⟩
          intro e he
          rcases List.mem_cons.mp he with heq' | hmem
          · subst heq'
            obtain ⟨dv', hdv', hle'⟩ := hdle' v ((d + w : Nat) : ℕ∞)
              (by simp [hs₁d, Function.update_same])
            exact ⟨dv', hdv', hle'⟩
          · exact hb e hmem
      · -- the relaxation does not fire
        have heq : relaxList d u ((v, w) :: rest) s = relaxList d u rest s := by
          simp only [relaxList, hdv]
          rw [if_neg hlt]
        rcases ih s done hc hud hdu
            (fun e he => hedges e (List.mem_cons_of_mem _ he)) with
          ⟨err, herr⟩ | ⟨s', hok, hc', hdle', hdu', hb⟩
        · exact Or.inl ⟨err, heq.trans herr⟩
        · refine Or.inr ⟨s', heq.trans hok, hc', hdle', hdu', ?_⟩
          intro e he
          rcases List.mem_cons.mp he with heq' | hmem
          · subst heq'
            obtain ⟨dv', hdv', hle'⟩ := hdle' v dv hdv
            exact ⟨dv', hdv', le_trans hle' (not_lt.mp hlt)⟩
          · exact hb e hmem


/-! ## Unfolding the `while` loop -/

theorem dloop_eq_empty {g : Graph} {fuel : Nat} {s : DState}
    (h : popMin s.queue = none) : dloop g fuel s = some (.ok s) := by
  rw [dloop, h]

theorem dloop_eq_zero {g : Graph} {s : DState} {d : Nat} {u : Node}
    {q' : List (Nat × Node)} (h : popMin s.queue = some ((d, u), q')) :
    dloop g 0 s = none := by
  rw [dloop, h]

theorem dloop_eq_succ {g : Graph} {fuel : Nat} {s : DState} {d : Nat} {u : Node}
    {q' : List (Nat × Node)} (h : popMin s.queue = some ((d, u), q')) :
    dloop g (fuel + 1) s =
      match s.distances u with
      | none => some (.error (.keyError u))
      | some du =>
        if du < (d : ℕ∞) then dloop g fuel { s with queue := q' }
        else
          match lookupGraph g u with
          | none => some (.error (.keyError u))
          | some nbrs =>
            match relaxList d u nbrs { s with queue := q' } with
            | .error e => some (.error e)
            | .ok s' => dloop g fuel s' := by
  rw [dloop, h]

/-! ## The invariant is preserved by the whole loop -/

theorem dloop_inv {g : Graph} {src : Node} :
    ∀ (fuel : Nat) (s : DState) (done : Set Node),
      InvCore g src s done → DoneRelax g src s done →
      ∀ s', dloop g fuel s = some (.ok s') →
      ∃ done', InvCore g src s' done' ∧ DoneRelax g src s' done' ∧
        s'.queue = [] := by
  intro fuel
  induction fuel with
  | zero =>
    intro s done hc hr s' h
    cases hq : popMin s.queue with
    | none =>
      rw [dloop_eq_empty hq] at h
      cases h
      exact ⟨done, hc, hr, eq_nil_of_popMin_eq_none hq⟩
    | some r =>
      obtain ⟨⟨d, u⟩, q'⟩ := r
      rw [dloop_eq_zero hq] at h
      exact Option.noConfusion h
  | succ fuel ih =>
    intro s done hc hr s' h
    cases hq : popMin s.queue with
    | none =>
      rw [dloop_eq_empty hq] at h
      cases h
      exact ⟨done, hc, hr, eq_nil_of_popMin_eq_none hq⟩
    | some r =>
      obtain ⟨⟨d, u⟩, q'⟩ := r
      rw [dloop_eq_succ hq] at h
      have hperm := popMin_perm hq
      cases hdu : s.distances u with
      | none =>
        simp [hdu] at h
      | some du =>
        simp only [hdu] at h
        by_cases hstale : du < (d : ℕ∞)
        · -- stale entry, skipped by the `continue`
          rw [if_pos hstale] at h
          have hc₂ : InvCore g src ({ s with queue := q' }) done := by
            refine ⟨hc.dom, hc.dist_src, hc.par_src, hc.done_dist, hc.done_fin,
              ?_, ?_, hc.path, hc.pp, hc.reach⟩
            · intro e he
              exact hc.q_sound e (hperm.symm.subset (List.mem_cons_of_mem _ he))
            · intro x n hxd hx
              have hmem := hperm.subset (hc.q_fresh x n hxd hx)
              rcases List.mem_cons.mp hmem with heq | hmem'
              · exfalso
                have hxu : x = u := congrArg Prod.snd heq
                have hnd : n = d := congrArg Prod.fst heq
                subst hxu
                subst hnd
                rw [hdu] at hx
                have hdun : du = (n : ℕ∞) := Option.some.inj hx
                rw [hdun] at hstale
                exact lt_irrefl _ hstale
              · exact hmem'
          exact ih { s with queue := q' } done hc₂ hr s' h
        · -- genuine pop: `u` is settled and all its edges are relaxed
          have hdud : du = (d : ℕ∞) := by
            obtain ⟨dv, hdv, hb⟩ := hc.q_sound (d, u) (popMin_mem hq)
            rw [hdu] at hdv
            have hdveq : dv = du := (Option.some.inj hdv).symm
            subst hdveq
            exact le_antisymm hb (not_lt.mp hstale)
          subst hdud
          have hsd : sdist g src u = (d : ℕ∞) := pop_settles hc hr hq hdu
          rw [if_neg hstale] at h
          cases hlook : lookupGraph g u with
          | none =>
            simp [hlook] at h
          | some nbrs =>
            simp only [hlook] at h
            have huin : u ∈ done ∪ {u} := Set.mem_union_right _ rfl
            have hc₂ : InvCore g src ({ s with queue := q' }) (done ∪ {u}) := by
              refine ⟨hc.dom, hc.dist_src, hc.par_src, ?_, ?_, ?_, ?_, hc.path,
                ?_, hc.reach⟩
              · intro x hx
                rcases hx with hx | hx
                · exact hc.done_dist x hx
                · have hxu : x = u := hx
                  subst hxu
                  rw [hsd]
                  exact hdu
              · intro x hx
                rcases hx with hx | hx
                · exact hc.done_fin x hx
                · have hxu : x = u := hx
                  subst hxu
                  rw [hsd]
                  exact WithTop.coe_ne_top
              · intro e he
                exact hc.q_sound e (hperm.symm.subset (List.mem_cons_of_mem _ he))
              · intro x n hxd hx
                have hxd' : x ∉ done := fun hxx => hxd (Set.mem_union_left _ hxx)
                have hxu : x ≠ u := fun hxx => hxd (hxx ▸ huin)
                have hmem := hperm.subset (hc.q_fresh x n hxd' hx)
                rcases List.mem_cons.mp hmem with heq | hmem'
                · exact absurd (congrArg Prod.snd heq) hxu
                · exact hmem'
              · intro x y hxy
                obtain ⟨hy, rest⟩ := hc.pp x y hxy
                exact ⟨Set.mem_union_left _ hy, rest⟩
            have hr₂ : DoneRelax g src ({ s with queue := q' }) done := hr
            have hdu₂ : ({ s with queue := q' } : DState).distances u
                = some (d : ℕ∞) := hdu
            have hedges : ∀ e ∈ nbrs, edgeW g u e.1 e.2 :=
              fun e he => edgeW_of_lookup hlook he
            rcases relaxList_spec hsd nbrs { s with queue := q' } (done ∪ {u})
                hc₂ huin hdu₂ hedges with
              ⟨err, herr⟩ | ⟨s₃, hok, hc₃, hdle₃, hdu₃, hb₃⟩
            · simp [herr] at h
            · simp only [hok] at h
              have hr₃ : DoneRelax g src s₃ (done ∪ {u}) := by
                intro x hx nbrs' hnbrs' e he
                rcases hx with hx | hx
                · exact doneRelax_mono hdle₃ hr₂ x hx nbrs' hnbrs' e he
                · have hxu : x = u := hx
                  subst hxu
                  have hnn : nbrs' = nbrs :=
                    Option.some.inj (hnbrs'.symm.trans hlook)
                  subst hnn
                  obtain ⟨dv, hdv, hbb⟩ := hb₃ e he
                  refine ⟨dv, hdv, ?_⟩
                  rw [hsd]
                  calc dv ≤ ((d + e.2 : Nat) : ℕ∞) := hbb
                    _ = (d : ℕ∞) + (e.2 : ℕ∞) := by rw [Nat.cast_add]
              exact ih s₃ (done ∪ {u}) hc₃ hr₃ s' h

/-- Every successful construction run satisfies the invariant with an empty
queue at the end. -/
theorem calculate_distances_inv {g : Graph} {src : Node} {fuel : Nat}
    {s' : DState} (hsrc : src ∈ keys g)
    (h : calculate_distances g src fuel = some (.ok s')) :
    ∃ done, InvCore g src s' done ∧ DoneRelax g src s' done ∧
      s'.queue = [] :=
  dloop_inv fuel (dinit g src) ∅ (init_invCore hsrc) init_doneRelax s' h


/-! ## Consequences at the final state (empty queue) -/

/-- With an empty queue, every reachable node has been genuinely processed. -/
theorem final_done {g : Graph} {src : Node} {s : DState} {done : Set Node}
    (hc : InvCore g src s done) (hr : DoneRelax g src s done)
    (hqe : s.queue = []) {v : Node} {m : Nat} (hp : PathW g src v m) :
    v ∈ done := by
  rcases frontier hc hr hp with hv | ⟨y, n, _, _, _, hq⟩
  · exact hv
  · rw [hqe] at hq
    exact absurd hq (List.not_mem_nil _)

/-- With an empty queue, every node with a finite recorded distance has been
genuinely processed. -/
theorem final_done_of_finite {g : Graph} {src : Node} {s : DState}
    {done : Set Node} (hc : InvCore g src s done) (hqe : s.queue = [])
    {v : Node} {n : Nat} (hv : s.distances v = some (n : ℕ∞)) : v ∈ done := by
  by_contra hnd
  have := hc.q_fresh v n hnd hv
  rw [hqe] at this
  exact absurd this (List.not_mem_nil _)

/-- Every finite recorded distance retraces to the source through
`parents_map`, the hops being graph edges whose weights sum to it. -/
theorem trail_of_reaches {g : Graph} {src : Node} {s : DState}
    {done : Set Node} (hc : InvCore g src s done) :
    ∀ {x : Node}, Reaches s.parents src x →
      ∀ n : Nat, s.distances x = some (n : ℕ∞) →
      ParentTrail g s.parents src x n := by
  intro x hre
  induction hre with
  | refl =>
    intro n hv
    rw [hc.dist_src] at hv
    have h0 : (0 : ℕ∞) = (n : ℕ∞) := Option.some.inj hv
    have hn : n = 0 := by exact_mod_cast h0.symm
    subst hn
    exact ParentTrail.refl
  | step hxy hry ih =>
    rename_i x' y
    intro n hv
    obtain ⟨hy, dy, w, hdy, hedge, hdx⟩ := hc.pp x' y hxy
    rw [hdx] at hv
    have hn : n = dy + w := by
      have := Option.some.inj hv
      exact_mod_cast this.symm
    subst hn
    exact (ih dy hdy).step hxy hedge

/-! ## Walking the parent trail in `get_shortest_path` -/

/-- Running the backtracking loop of `get_shortest_path` along a parent
trail: it terminates, returns the trail reversed behind the accumulator, and
the resulting path goes from the start node to the queried node along graph
edges. -/
theorem trail_walk {g : Graph} {p : Node → Option Node} {src : Node}
    (hpsrc : p src = none) :
    ∀ {v : Node} {n : Nat}, ParentTrail g p src v n →
      ∃ tail : List Node,
        ((v :: tail).reverse.head? = some src) ∧
        ((v :: tail).reverse.getLast? = some v) ∧
        List.Chain' (fun a b => ∃ w, edgeW g a b w) ((v :: tail).reverse) ∧
        (∀ (acc : List Node) (fuel : Nat), tail.length ≤ fuel →
          getPathAux p src fuel v acc = some (.ok ((acc ++ tail).reverse))) := by
  intro v n htrail
  induction htrail with
  | refl =>
    refine ⟨[], by simp, by simp, by simp, ?_⟩
    intro acc fuel _
    cases fuel <;> simp [getPathAux]
  | step htr hpv hedge ih =>
    rename_i u v' m w
    obtain ⟨tail, hhead, hlast, hchain, hcomp⟩ := ih
    have hvs : v' ≠ src := by
      intro heq
      rw [heq, hpsrc] at hpv
      exact Option.noConfusion hpv
    refine ⟨u :: tail, ?_, ?_, ?_, ?_⟩
    · have : (v' :: u :: tail).reverse = (u :: tail).reverse ++ [v'] := by simp
      rw [this, List.head?_append]
      rw [hhead]
      rfl
    · have : (v' :: u :: tail).reverse = (u :: tail).reverse ++ [v'] := by simp
      rw [this]
      exact List.getLast?_concat _
    · have hrw : (v' :: u :: tail).reverse = (u :: tail).reverse ++ [v'] := by
        simp
      rw [hrw]
      refine List.chain'_append.mpr ⟨hchain, List.chain'_singleton _, ?_⟩
      intro x hx y hy
      rw [hlast] at hx
      simp only [Option.mem_def, Option.some.injEq] at hx
      simp only [List.head?_cons, Option.mem_def, Option.some.injEq] at hy
      subst hx
      subst hy
      exact ⟨w, hedge⟩
    · intro acc fuel hfuel
      simp only [List.length_cons] at hfuel
      obtain ⟨f, rfl⟩ : ∃ f, fuel = f + 1 := ⟨fuel - 1, by omega⟩
      have hf : tail.length ≤ f := by omega
      have hstep : getPathAux p src (f + 1) v' acc
          = getPathAux p src f u (acc ++ [u]) := by
        rw [getPathAux]
        rw [if_neg hvs, hpv]
      rw [hstep, hcomp (acc ++ [u]) f hf]
      simp


/-! ## The claims -/

/-- C1: for every finite graph with (inherently non-negative `Nat`) edge
weights whose source is a graph key, when construction
(`Dijkstra.__init__` / `_calculate_distances`) completes, the distances
dict assigns `0` to the source, assigns to every node reachable from the
source its true shortest-path distance `sdist`, and every unreachable graph
node retains `float('infinity')` and has no entry in `parents_map`. -/
theorem claim_C1 {g : Graph} {src : Node} {fuel : Nat} {s : DState}
    (hsrc : src ∈ keys g)
    (h : calculate_distances g src fuel = some (Except.ok s)) :
    s.distances src = some 0 ∧
    (∀ v, Reachable g src v → s.distances v = some (sdist g src v)) ∧
    (∀ v, v ∈ keys g → ¬Reachable g src v →
      s.distances v = some (⊤ : ℕ∞) ∧ s.parents v = none) := by
  obtain ⟨done, hc, hr, hqe⟩ := calculate_distances_inv hsrc h
  refine ⟨hc.dist_src, ?_, ?_⟩
  · rintro v ⟨m, hp⟩
    exact hc.done_dist v (final_done hc hr hqe hp)
  · intro v hkv hnr
    constructor
    · have hsome : (s.distances v).isSome := (hc.dom v).mpr hkv
      obtain ⟨dv, hdv⟩ := Option.isSome_iff_exists.mp hsome
      rcases eq_or_ne dv ⊤ with rfl | hne
      · exact hdv
      · obtain ⟨m, rfl⟩ := exists_coe_of_ne_top hne
        exact absurd ⟨m, hc.path v m hdv⟩ hnr
    · cases hpv : s.parents v with
      | none => rfl
      | some y =>
        obtain ⟨_, dy, w, _, _, hdx⟩ := hc.pp v y hpv
        exact absurd ⟨dy + w, hc.path v (dy + w) hdx⟩ hnr

/-- C3: for every graph with non-negative weights and source a graph key,
after a completed construction, every node with a finite recorded distance
`n` is joined to the source by a chain of `parents_map` entries (length
`≥ 0`) whose edges are graph edges and whose weights sum exactly to `n`. -/
theorem claim_C3 {g : Graph} {src : Node} {fuel : Nat} {s : DState}
    (hsrc : src ∈ keys g)
    (h : calculate_distances g src fuel = some (Except.ok s)) :
    ∀ (v : Node) (n : Nat), s.distances v = some (n : ℕ∞) →
      ParentTrail g s.parents src v n := by
  obtain ⟨done, hc, _, _⟩ := calculate_distances_inv hsrc h
  intro v n hv
  exact trail_of_reaches hc (hc.reach v n hv) n hv

/-- C4: for every graph with non-negative weights and source a graph key,
after a completed construction every edge `(u, v, w)` of the graph satisfies
`distances[v] ≤ distances[u] + w` (with the missing-key/infinity view
`distOf`). -/
theorem claim_C4 {g : Graph} {src : Node} {fuel : Nat} {s : DState}
    (hsrc : src ∈ keys g)
    (h : calculate_distances g src fuel = some (Except.ok s)) :
    ∀ (u v : Node) (w : Nat), edgeW g u v w →
      distOf s v ≤ distOf s u + (w : ℕ∞) := by
  obtain ⟨done, hc, hr, hqe⟩ := calculate_distances_inv hsrc h
  intro u v w he
  cases hdu : s.distances u with
  | none => simp [distOf, hdu]
  | some du =>
    rcases eq_or_ne du ⊤ with rfl | hne
    · simp [distOf, hdu]
    · obtain ⟨n, rfl⟩ := exists_coe_of_ne_top hne
      have hudone : u ∈ done := final_done_of_finite hc hqe hdu
      have hsd : sdist g src u = (n : ℕ∞) := by
        have hdd := hc.done_dist u hudone
        rw [hdu] at hdd
        exact (Option.some.inj hdd).symm
      obtain ⟨nbrs, hlook, hmem⟩ := he
      obtain ⟨dv, hdv, hb⟩ := hr u hudone nbrs hlook (v, w) hmem
      rw [distOf, hdv, distOf, hdu]
      simp only [Option.getD_some]
      rw [hsd] at hb
      exact hb

/-- C5: for every constructed engine and destination with no finite
distance (unreachable), `get_shortest_path` raises a `KeyError` on the
destination's missing `parents_map` entry on the very first loop iteration:
it terminates with an error for any fuel `≥ 1`, returning no path. -/
theorem claim_C5 {g : Graph} {src : Node} {fuel : Nat} {s : DState}
    (hsrc : src ∈ keys g)
    (h : calculate_distances g src fuel = some (Except.ok s))
    {dest : Node} (hunr : distOf s dest = ⊤) :
    ∀ fuel₂, 1 ≤ fuel₂ →
      get_shortest_path s.parents src fuel₂ dest
        = some (.error (.keyError dest)) := by
  obtain ⟨done, hc, _, _⟩ := calculate_distances_inv hsrc h
  have hnofin : ∀ n : Nat, s.distances dest ≠ some (n : ℕ∞) := by
    intro n hn
    rw [distOf, hn, Option.getD_some] at hunr
    exact WithTop.coe_ne_top hunr
  have hds : dest ≠ src := by
    intro heq
    refine hnofin 0 ?_
    rw [heq, hc.dist_src]
    simp
  have hpd : s.parents dest = none := by
    cases hpv : s.parents dest with
    | none => rfl
    | some y =>
      obtain ⟨_, dy, w, _, _, hdx⟩ := hc.pp dest y hpv
      exact absurd hdx (hnofin (dy + w))
  intro fuel₂ hf
  obtain ⟨f, rfl⟩ : ∃ f, fuel₂ = f + 1 := ⟨fuel₂ - 1, by omega⟩
  rw [get_shortest_path, getPathAux, if_neg hds, hpd]

/-- C6: for every constructed engine and destination that was never a key
of the graph dict, `get_shortest_path` raises a `KeyError` naming the
destination (Python's missing-key error), for any fuel `≥ 1`. -/
theorem claim_C6 {g : Graph} {src : Node} {fuel : Nat} {s : DState}
    (hsrc : src ∈ keys g)
    (h : calculate_distances g src fuel = some (Except.ok s))
    {dest : Node} (hdest : dest ∉ keys g) :
    ∀ fuel₂, 1 ≤ fuel₂ →
      get_shortest_path s.parents src fuel₂ dest
        = some (.error (.keyError dest)) := by
  obtain ⟨done, hc, _, _⟩ := calculate_distances_inv hsrc h
  have hds : dest ≠ src := fun heq => hdest (heq ▸ hsrc)
  have hdnone : s.distances dest = none := by
    cases hdd : s.distances dest with
    | none => rfl
    | some dv => exact absurd ((hc.dom dest).mp (by simp [hdd])) hdest
  have hpd : s.parents dest = none := by
    cases hpv : s.parents dest with
    | none => rfl
    | some y =>
      obtain ⟨_, dy, w, _, _, hdx⟩ := hc.pp dest y hpv
      rw [hdnone] at hdx
      exact Option.noConfusion hdx
  intro fuel₂ hf
  obtain ⟨f, rfl⟩ : ∃ f, fuel₂ = f + 1 := ⟨fuel₂ - 1, by omega⟩
  rw [get_shortest_path, getPathAux, if_neg hds, hpd]

/-- C8: for every constructed engine and destination with a finite recorded
distance (reachable), `get_shortest_path` terminates (for any sufficient
fuel) and returns a path that starts at the source, ends at the
destination, and whose consecutive nodes are joined by graph edges. -/
theorem claim_C8 {g : Graph} {src : Node} {fuel : Nat} {s : DState}
    (hsrc : src ∈ keys g)
    (h : calculate_distances g src fuel = some (Except.ok s))
    {dest : Node} {n : Nat} (hdest : s.distances dest = some (n : ℕ∞)) :
    ∃ (l : List Node) (k : Nat),
      (∀ fuel₂, k ≤ fuel₂ →
        get_shortest_path s.parents src fuel₂ dest = some (.ok l)) ∧
      l.head? = some src ∧ l.getLast? = some dest ∧
      List.Chain' (fun a b => ∃ w, edgeW g a b w) l := by
  obtain ⟨done, hc, _, _⟩ := calculate_distances_inv hsrc h
  have htrail := trail_of_reaches hc (hc.reach dest n hdest) n hdest
  obtain ⟨tail, hhead, hlast, hchain, hcomp⟩ := trail_walk hc.par_src htrail
  refine ⟨(dest :: tail).reverse, tail.length, ?_, hhead, hlast, hchain⟩
  intro fuel₂ hf
  rw [get_shortest_path, hcomp [dest] fuel₂ hf]
  simp

/-- C10: `get_shortest_path` called with the start node itself returns the
one-element path `[start_node]` immediately, for any fuel and any
`parents_map` whatsoever (the map is never consulted). -/
theorem claim_C10 (p : Node → Option Node) (start_node : Node) (fuel : Nat) :
    get_shortest_path p start_node fuel start_node
      = some (.ok [start_node]) := by
  rw [get_shortest_path, getPathAux.eq_def]
  simp


/-- C7: constructing with a source that is not a graph key fails with a
`KeyError` naming the source: the dict assignment `distances[start_node]=0`
succeeds, the first pop passes the staleness test, and then
`self.graph[current_node]` raises on the missing key. -/
theorem claim_C7 {g : Graph} {src : Node} (hsrc : src ∉ keys g) :
    ∀ fuel, 1 ≤ fuel →
      calculate_distances g src fuel = some (.error (.keyError src)) := by
  intro fuel hf
  obtain ⟨f, rfl⟩ : ∃ f, fuel = f + 1 := ⟨fuel - 1, by omega⟩
  have hq : popMin (dinit g src).queue = some ((0, src), []) := rfl
  rw [calculate_distances, dloop_eq_succ hq]
  have hd : (dinit g src).distances src = some (0 : ℕ∞) := by
    simp [dinit, Function.update_same]
  simp only [hd]
  rw [if_neg (by simp)]
  rw [lookupGraph_eq_none_of hsrc]

/-! ## C2: a neighbour that is not a graph key crashes the construction -/

/-- If the relaxed neighbour list contains a node with no entry in the
distances dict (equivalently, not a graph key), the `for` loop raises a
`KeyError` on the first such neighbour instead of skipping it. -/
theorem relaxList_error_of_missing {g : Graph} {d : Nat} {u : Node} :
    ∀ (l : List (Node × Nat)) (s : DState),
      (∀ x, (s.distances x).isSome ↔ x ∈ keys g) →
      (∃ e ∈ l, e.1 ∉ keys g) →
      ∃ z, z ∉ keys g ∧ relaxList d u l s = .error (.keyError z) := by
  intro l
  induction l with
  | nil =>
    rintro s _ ⟨e, he, _⟩
    exact absurd he (List.not_mem_nil e)
  | cons e rest ih =>
    obtain ⟨v, w⟩ := e
    rintro s hdom ⟨e', he', hmiss⟩
    by_cases hv : v ∈ keys g
    · have hsome : (s.distances v).isSome := (hdom v).mpr hv
      obtain ⟨dv, hdv⟩ := Option.isSome_iff_exists.mp hsome
      have hrest : ∃ e ∈ rest, e.1 ∉ keys g := by
        rcases List.mem_cons.mp he' with rfl | hm
        · exact absurd hv (by simpa using hmiss)
        · exact ⟨e', hm, hmiss⟩
      by_cases hlt : ((d + w : Nat) : ℕ∞) < dv
      · have hdom₁ : ∀ x,
            ((Function.update s.distances v
              (some ((d + w : Nat) : ℕ∞))) x).isSome ↔ x ∈ keys g := by
          intro x
          by_cases hxv : x = v
          · subst hxv
            simp [Function.update_same, hv]
          · rw [Function.update_noteq hxv]
            exact hdom x
        obtain ⟨z, hz, hrel⟩ := ih
          { distances := Function.update s.distances v
              (some ((d + w : Nat) : ℕ∞))
            parents := Function.update s.parents v (some u)
            queue := (d + w, v) :: s.queue } hdom₁ hrest
        refine ⟨z, hz, ?_⟩
        simp only [relaxList, hdv]
        rw [if_pos hlt]
        exact hrel
      · obtain ⟨z, hz, hrel⟩ := ih s hdom hrest
        refine ⟨z, hz, ?_⟩
        simp only [relaxList, hdv]
        rw [if_neg hlt]
        exact hrel
    · have hnone : s.distances v = none := by
        cases hdd : s.distances v with
        | none => rfl
        | some dv => exact absurd ((hdom v).mp (by simp [hdd])) hv
      refine ⟨v, hv, ?_⟩
      simp [relaxList, hnone]

/-- C2 (amended): a node that appears as a neighbour of the source but not
as a graph key is NOT treated as a terminal leaf — the first relaxation
pass over the source's neighbours raises a `KeyError` on some missing
neighbour and construction fails. -/
theorem claim_C2_amended {g : Graph} {src : Node} {nbrs : List (Node × Nat)}
    (hlook : lookupGraph g src = some nbrs)
    (hmiss : ∃ e ∈ nbrs, e.1 ∉ keys g) :
    ∀ fuel, 1 ≤ fuel → ∃ u, u ∉ keys g ∧
      calculate_distances g src fuel = some (.error (.keyError u)) := by
  have hsrc : src ∈ keys g := mem_keys_of_lookupGraph hlook
  intro fuel hf
  obtain ⟨f, rfl⟩ : ∃ f, fuel = f + 1 := ⟨fuel - 1, by omega⟩
  have hq : popMin (dinit g src).queue = some ((0, src), []) := rfl
  rw [calculate_distances, dloop_eq_succ hq]
  have hd : (dinit g src).distances src = some (0 : ℕ∞) := by
    simp [dinit, Function.update_same]
  simp only [hd]
  rw [if_neg (by simp)]
  simp only [hlook]
  obtain ⟨z, hz, hrel⟩ := relaxList_error_of_missing nbrs
    { dinit g src with queue := [] } (init_invCore hsrc).dom hmiss
  refine ⟨z, hz, ?_⟩
  rw [hrel]

/-- C2 (counterexample to the claim as stated): in `leafGraph`, `'B'` is a
neighbour of `'A'` but not a key; construction from `'A'` does not complete
— relaxing the edge into `'B'` looks up `distances['B']` and raises
`KeyError('B')`. -/
theorem claim_C2_counterexample :
    edgeW leafGraph "A" "B" 1 ∧ "B" ∉ keys leafGraph ∧
    calculate_distances leafGraph "A" 2
      = some (Except.error (Err.keyError "B")) :=
  ⟨⟨[("B", 1)], rfl, List.mem_singleton.mpr rfl⟩, by decide, rfl⟩

/-! ## C9: the sample run at the bottom of the file -/

/-- C9: on the 6-node sample graph with source `'A'`, construction succeeds
with distances `A:0, B:4, C:3, D:2, E:5, F:6`, and `get_shortest_path('E')`
returns `['A', 'D', 'C', 'E']`. -/
theorem claim_C9 :
    calculate_distances demoGraph "A" 16 = some (Except.ok demoState) ∧
    demoState.distances "A" = some ((0 : Nat) : ℕ∞) ∧
    demoState.distances "B" = some ((4 : Nat) : ℕ∞) ∧
    demoState.distances "C" = some ((3 : Nat) : ℕ∞) ∧
    demoState.distances "D" = some ((2 : Nat) : ℕ∞) ∧
    demoState.distances "E" = some ((5 : Nat) : ℕ∞) ∧
    demoState.distances "F" = some ((6 : Nat) : ℕ∞) ∧
    get_shortest_path demoState.parents "A" 8 "E"
      = some (Except.ok ["A", "D", "C", "E"]) :=
  ⟨rfl, by decide, by decide, by decide, by decide, by decide, by decide, rfl⟩

/-! ## Witnesses -/

/-- Witness for C1 on the sample graph: `'E'` is reachable from `'A'` and
its recorded distance is the true shortest distance. -/
theorem claim_C1_witness :
    demoState.distances "E" = some (sdist demoGraph "A" "E") := by
  have eAD : edgeW demoGraph "A" "D" 2 := ⟨_, rfl, by decide⟩
  have eDC : edgeW demoGraph "D" "C" 1 := ⟨_, rfl, by decide⟩
  have eCE : edgeW demoGraph "C" "E" 2 := ⟨_, rfl, by decide⟩
  exact (@claim_C1 demoGraph "A" 16 demoState (by decide) rfl).2.1 "E"
    ⟨0 + 2 + 1 + 2, ((PathW.refl.step eAD).step eDC).step eCE⟩

/-- Witness for C2 (amended) on `leafGraph`. -/
theorem claim_C2_amended_witness :
    ∃ u, u ∉ keys leafGraph ∧
      calculate_distances leafGraph "A" 2
        = some (Except.error (Err.keyError u)) :=
  @claim_C2_amended leafGraph "A" [("B", 1)] rfl
    ⟨("B", 1), List.mem_singleton.mpr rfl, by decide⟩ 2 (by decide)

/-- Witness for C3: the parent chain of `'E'` sums to its distance `5`. -/
theorem claim_C3_witness :
    ParentTrail demoGraph demoState.parents "A" "E" 5 :=
  @claim_C3 demoGraph "A" 16 demoState (by decide) rfl "E" 5 (by decide)

/-- Witness for C4 on the edge `('A', 'B', 4)` of the sample graph. -/
theorem claim_C4_witness :
    distOf demoState "B" ≤ distOf demoState "A" + ((4 : Nat) : ℕ∞) :=
  @claim_C4 demoGraph "A" 16 demoState (by decide) rfl "A" "B" 4
    ⟨[("B", 4), ("C", 7), ("D", 2), ("F", 9)], rfl, by decide⟩

/-- Witness for C5: querying the unreachable `'Z'` fails with
`KeyError('Z')`. -/
theorem claim_C5_witness :
    get_shortest_path unreachState.parents "A" 1 "Z"
      = some (Except.error (Err.keyError "Z")) :=
  @claim_C5 unreachGraph "A" 8 unreachState (by decide) rfl "Z" (by decide)
    1 (by decide)

/-- Witness for C6: querying `'Z'`, never a key of the sample graph, fails
with `KeyError('Z')`. -/
theorem claim_C6_witness :
    get_shortest_path demoState.parents "A" 1 "Z"
      = some (Except.error (Err.keyError "Z")) :=
  @claim_C6 demoGraph "A" 16 demoState (by decide) rfl "Z" (by decide)
    1 (by decide)

/-- Witness for C7: source `'A'` on the empty graph dict. -/
theorem claim_C7_witness :
    calculate_distances [] "A" 1 = some (Except.error (Err.keyError "A")) :=
  @claim_C7 [] "A" (by decide) 1 (by decide)

/-- Witness for C8: the path to `'E'` on the sample graph. -/
theorem claim_C8_witness :
    ∃ (l : List Node) (k : Nat),
      (∀ fuel₂, k ≤ fuel₂ →
        get_shortest_path demoState.parents "A" fuel₂ "E" = some (.ok l)) ∧
      l.head? = some "A" ∧ l.getLast? = some "E" ∧
      List.Chain' (fun a b => ∃ w, edgeW demoGraph a b w) l :=
  @claim_C8 demoGraph "A" 16 demoState (by decide) rfl "E" 5 (by decide)

end Dijkstra
